import Mathlib

/- Verification of the ue4ss-installer-core release-catalog client, release
   selector and INI-style settings parser/writer.

   The embedding follows src/ue4ss_installer_core/ue4ss.py:
   - the settings file is modelled as a list of lines, each line a list of
     characters (the Python code reads and writes the file line by line);
   - the process-wide cached catalog is modelled by explicit state passing of
     an Option RepositoryReleasesInfo value;
   - the network is modelled as a finite list of page responses consumed by
     the pagination loop;
   - Python exceptions are modelled with Except / explicit error fields. -/

/- Characters stripped by str.strip() in Python: ASCII whitespace. -/
def isSpaceChar (c : Char) : Bool :=
  c == ' ' || c == '\t' || c == '\n' || c == '\r' || c == '\x0b' || c == '\x0c'

/- Remove leading whitespace, as the front half of str.strip(). -/
def trimLeft : List Char → List Char
  | [] => []
  | c :: rest => if isSpaceChar c then trimLeft rest else c :: rest

/- Remove trailing whitespace, as the back half of str.strip(). -/
def trimRight : List Char → List Char
  | [] => []
  | c :: rest =>
    if trimRight rest = [] then (if isSpaceChar c then [] else [c]) else c :: trimRight rest

/- Python str.strip(): drop whitespace from both ends. -/
def strip (l : List Char) : List Char := trimRight (trimLeft l)

/- Python s.startswith(single-character) on a string. -/
def headIs (ch : Char) : List Char → Bool
  | [] => false
  | c :: _ => c == ch

/- Python s.endswith(single-character) on a string. -/
def lastIs (ch : Char) : List Char → Bool
  | [] => false
  | [c] => c == ch
  | _ :: c :: rest => lastIs ch (c :: rest)

/- Python (single-character in s): membership test used for "=" in stripped. -/
def hasEq : List Char → Bool
  | [] => false
  | c :: rest => c == '=' || hasEq rest

/- Python stripped.split(separator, 1) for a line known to contain "=":
   returns the text left of the first "=" and the text right of it. -/
def splitFirstEq : List Char → List Char × List Char
  | [] => ([], [])
  | c :: rest =>
    if c == '=' then ([], rest)
    else (c :: (splitFirstEq rest).1, (splitFirstEq rest).2)

/- Dataclass ConfigEntry of ue4ss.py. -/
structure ConfigEntry where
  key : List Char
  value : List Char
  comments : List (List Char)
deriving DecidableEq

/- Dataclass ConfigSection of ue4ss.py. -/
structure ConfigSection where
  header : List Char
  config_entries : List ConfigEntry
deriving DecidableEq

/- The local state of parse_ue4ss_settings_file while scanning lines:
   the closed sections, the currently open section, pending comments. -/
structure ParseState where
  sections : List ConfigSection
  current : Option ConfigSection
  pending : List (List Char)
deriving DecidableEq

/- One iteration of the line loop of parse_ue4ss_settings_file. -/
def parse_line (st : ParseState) (line : List Char) : ParseState :=
  let s := strip line
  if s = [] then st
  else if headIs '[' s && lastIs ']' s then
    { sections := st.sections ++ (match st.current with | some c => [c] | none => []),
      current := some { header := s, config_entries := [] },
      pending := [] }
  else if headIs ';' s then
    { st with pending := st.pending ++ [s] }
  else if hasEq s then
    let kv := splitFirstEq s
    let entry : ConfigEntry := { key := strip kv.1, value := strip kv.2, comments := st.pending }
    match st.current with
    | some c =>
      { st with
        current := some { header := c.header, config_entries := c.config_entries ++ [entry] },
        pending := [] }
    | none =>
      { st with current := some { header := [], config_entries := [entry] }, pending := [] }
  else
    { st with pending := st.pending ++ [s] }

/- The full line loop. -/
def parse_lines (st : ParseState) : List (List Char) → ParseState
  | [] => st
  | line :: rest => parse_lines (parse_line st line) rest

/- After the loop, the still-open section (if any) is appended. -/
def finish_parse (st : ParseState) : List ConfigSection :=
  st.sections ++ (match st.current with | some c => [c] | none => [])

/- parse_ue4ss_settings_file of ue4ss.py, on the file given as its lines. -/
def parse_ue4ss_settings_file (lines : List (List Char)) : List ConfigSection :=
  finish_parse (parse_lines { sections := [], current := none, pending := [] } lines)

/- Lines written for one entry by write_ue4ss_settings_file: each comment on
   its own line, then the "key = value" line. -/
def serialize_entry (e : ConfigEntry) : List (List Char) :=
  e.comments ++ [e.key ++ ' ' :: '=' :: ' ' :: e.value]

/- Lines written for one section by write_ue4ss_settings_file: the header
   when non-empty, the entries, then one blank line. -/
def serialize_section (s : ConfigSection) : List (List Char) :=
  (if s.header = [] then [] else [s.header]) ++
    (s.config_entries.map serialize_entry).flatten ++ [[]]

/- write_ue4ss_settings_file of ue4ss.py, as the list of written lines. -/
def write_ue4ss_settings_file (sections : List ConfigSection) : List (List Char) :=
  (sections.map serialize_section).flatten

/- Well-formedness of parse output, used to re-parse serialized text. -/

abbrev IsCommentLine (l : List Char) : Prop :=
  strip l ≠ [] ∧ (headIs '[' (strip l) && lastIs ']' (strip l)) = false ∧
    (headIs ';' (strip l) = true ∨ hasEq (strip l) = false)

def WfComment (c0 : List Char) : Prop :=
  strip c0 = c0 ∧ c0 ≠ [] ∧ (headIs '[' c0 && lastIs ']' c0) = false ∧
    (headIs ';' c0 = true ∨ hasEq c0 = false)

def EntryOrigin (e : ConfigEntry) : Prop :=
  ∃ s, strip s = s ∧ (headIs '[' s && lastIs ']' s) = false ∧ headIs ';' s = false ∧
    hasEq s = true ∧ e.key = strip (splitFirstEq s).1 ∧ e.value = strip (splitFirstEq s).2

def WfEntry (e : ConfigEntry) : Prop :=
  EntryOrigin e ∧ ∀ c0 ∈ e.comments, WfComment c0

def WfSection (sec : ConfigSection) : Prop :=
  (sec.header ≠ [] → strip sec.header = sec.header ∧ headIs '[' sec.header = true ∧
    lastIs ']' sec.header = true) ∧
  ∀ e ∈ sec.config_entries, WfEntry e

def StInv (st : ParseState) : Prop :=
  (∀ sec ∈ st.sections, WfSection sec ∧ (sec.header = [] → sec.config_entries ≠ [])) ∧
  (∀ sec ∈ st.sections.tail, sec.header ≠ []) ∧
  (∀ c, st.current = some c → WfSection c ∧
    (c.header = [] → st.sections = [] ∧ c.config_entries ≠ [])) ∧
  (st.current = none → st.sections = []) ∧
  (∀ p ∈ st.pending, WfComment p)

/- Release catalog model. -/

/- One asset object of a release JSON page (name, browser_download_url,
   created_at fields read by get_all_release_assets). -/
structure ReleaseApiAsset where
  name : String
  browser_download_url : String
  created_at : String
deriving DecidableEq

/- One release object of a release JSON page (tag_name, prerelease,
   created_at, assets fields read by get_all_release_assets). -/
structure ApiRelease where
  tag_name : String
  prerelease : Bool
  created_at : String
  assets : List ReleaseApiAsset
deriving DecidableEq

/- Dataclass ReleaseTagAssetInfo of ue4ss.py. -/
structure ReleaseTagAssetInfo where
  file_name : String
  download_link : String
  created_at : String
deriving DecidableEq

/- Dataclass ReleaseAssetInfo of ue4ss.py. -/
structure ReleaseAssetInfo where
  tag : String
  is_prerelease : Bool
  is_latest : Bool
  has_assets : Bool
  created_at : String
  assets : List ReleaseTagAssetInfo
deriving DecidableEq

/- Dataclass RepositoryReleasesInfo of ue4ss.py. -/
structure RepositoryReleasesInfo where
  owner : String
  repo : String
  tags : List ReleaseAssetInfo
deriving DecidableEq

/- Lexicographic comparison of code points, as Python compares the
   created_at strings in sorted(key=..., reverse=True). -/
def charListLe : List Char → List Char → Bool
  | [], _ => true
  | _ :: _, [] => false
  | a :: as, b :: bs =>
    if a.toNat < b.toNat then true
    else if b.toNat < a.toNat then false
    else charListLe as bs

def strLe (a b : String) : Bool := charListLe a.data b.data

/- Stable sort by created_at descending, modelling Python
   sorted(all_releases, key=created_at, reverse=True): an element is placed
   before the first already-sorted element whose key is less than or equal to
   its own, so elements with equal keys keep their original relative order. -/
def insertRelease (r : ApiRelease) : List ApiRelease → List ApiRelease
  | [] => [r]
  | x :: xs =>
    if strLe x.created_at r.created_at then r :: x :: xs else x :: insertRelease r xs

def sortReleasesDesc : List ApiRelease → List ApiRelease
  | [] => []
  | r :: rs => insertRelease r (sortReleasesDesc rs)

/- The latest_tag loop of get_all_release_assets: the tag name of the first
   release in sorted order that is not a prerelease. -/
def firstNormalTag : List ApiRelease → Option String
  | [] => none
  | r :: rest => if r.prerelease then firstNormalTag rest else some r.tag_name

def mkReleaseTagAssetInfo (a : ReleaseApiAsset) : ReleaseTagAssetInfo :=
  { file_name := a.name, download_link := a.browser_download_url, created_at := a.created_at }

/- One entry of tag_infos built by get_all_release_assets; is_latest is the
   comparison (tag == latest_tag) against the Optional latest tag name. -/
def mkReleaseAssetInfo (latest_tag : Option String) (r : ApiRelease) : ReleaseAssetInfo :=
  { tag := r.tag_name
    is_prerelease := r.prerelease
    is_latest := latest_tag == some r.tag_name
    has_assets := !(r.assets.map mkReleaseTagAssetInfo).isEmpty
    created_at := r.created_at
    assets := r.assets.map mkReleaseTagAssetInfo }

/- The pure tail of get_all_release_assets, applied to the accumulated
   releases of all fetched pages. -/
def buildReleasesInfo (owner repo : String) (all_releases : List ApiRelease) : RepositoryReleasesInfo :=
  let sorted_releases := sortReleasesDesc all_releases
  { owner := owner, repo := repo,
    tags := sorted_releases.map (mkReleaseAssetInfo (firstNormalTag sorted_releases)) }

/- The exception raised by get_all_release_assets on a non-200 response,
   carrying response.status_code and response.text. -/
structure RemoteAPIError where
  status_code : Nat
  body : String
deriving DecidableEq

/- One response of the release-hosting API to a page request. -/
inductive PageResponse where
  | success (releases : List ApiRelease)
  | failure (status_code : Nat) (body : String)
deriving DecidableEq

/- The pagination loop of get_all_release_assets over a finite run of page
   responses: a non-200 response raises, an empty page stops the loop, a
   non-empty page is accumulated.  Exhausting the modelled run behaves as an
   empty page. -/
def fetch_release_pages : List PageResponse → List ApiRelease → Except RemoteAPIError (List ApiRelease)
  | [], acc => .ok acc
  | .failure code body :: _, _ => .error { status_code := code, body := body }
  | .success [] :: _, acc => .ok acc
  | .success (r :: rs) :: rest, acc => fetch_release_pages rest (acc ++ r :: rs)

/- get_all_release_assets of ue4ss.py over a modelled run of page responses. -/
def get_all_release_assets (owner repo : String) (pages : List PageResponse) :
    Except RemoteAPIError RepositoryReleasesInfo :=
  match fetch_release_pages pages [] with
  | .error e => .error e
  | .ok all_releases => .ok (buildReleasesInfo owner repo all_releases)

/- Result of one call to cache_repo_releases_info: the process-wide state
   after the call, whether a fetch was attempted, and the raised error if
   the fetch failed (in which case the assignment never happens and the
   state is left as it was). -/
structure CacheOutcome where
  state : Option RepositoryReleasesInfo
  fetched : Bool
  error : Option RemoteAPIError
deriving DecidableEq

/- cache_repo_releases_info of ue4ss.py with the global made explicit. -/
def cache_repo_releases_info (st : Option RepositoryReleasesInfo) (owner repo : String)
    (pages : List PageResponse) : CacheOutcome :=
  match st with
  | some _ => { state := st, fetched := false, error := none }
  | none =>
    match get_all_release_assets owner repo pages with
    | .ok info => { state := some info, fetched := true, error := none }
    | .error e => { state := none, fetched := true, error := some e }

/- Failures of the Release Selector operations, named as in the spec:
   catalogNotCached models the "Repo release info is not cached" exception,
   noDefaultTag the IndexError of get_default_ue4ss_version_tag on an empty
   list, noCompatibleAsset the RuntimeError naming the tag in the install
   functions. -/
inductive SelectorError where
  | catalogNotCached
  | noDefaultTag
  | noCompatibleAsset (tag : String)
deriving DecidableEq

/- get_all_tags_with_assets of ue4ss.py. -/
def get_all_tags_with_assets (st : Option RepositoryReleasesInfo) :
    Except SelectorError (List String) :=
  match st with
  | none => .error .catalogNotCached
  | some info => .ok ((info.tags.filter fun t => t.has_assets).map fun t => t.tag)

/- get_pre_release_tags_with_assets of ue4ss.py. -/
def get_pre_release_tags_with_assets (st : Option RepositoryReleasesInfo) :
    Except SelectorError (List String) :=
  match st with
  | none => .error .catalogNotCached
  | some info => .ok ((info.tags.filter fun t => t.has_assets && t.is_prerelease).map fun t => t.tag)

/- get_normal_release_tags_with_assets of ue4ss.py. -/
def get_normal_release_tags_with_assets (st : Option RepositoryReleasesInfo) :
    Except SelectorError (List String) :=
  match st with
  | none => .error .catalogNotCached
  | some info => .ok ((info.tags.filter fun t => t.has_assets && !t.is_prerelease).map fun t => t.tag)

/- get_default_ue4ss_version_tag of ue4ss.py: returns the literal string
   "latest" when the catalog is not cached, otherwise indexes the normal
   release tags at 0 (IndexError on the empty list, modelled noDefaultTag). -/
def get_default_ue4ss_version_tag (st : Option RepositoryReleasesInfo) :
    Except SelectorError String :=
  match st with
  | none => .ok "latest"
  | some info =>
    match get_normal_release_tags_with_assets (some info) with
    | .error e => .error e
    | .ok [] => .error .noDefaultTag
    | .ok (t :: _) => .ok t

/- Python dict insertion semantics for the comprehension building the
   file-name to download-link map: re-assigning an existing key keeps its
   position and replaces its value, a new key is appended. -/
def dict_insert (m : List (String × String)) (k v : String) : List (String × String) :=
  if m.any fun p => p.1 == k then
    m.map fun p => if p.1 == k then (k, v) else p
  else
    m ++ [(k, v)]

def dict_of_assets (assets : List ReleaseTagAssetInfo) : List (String × String) :=
  assets.foldl (fun m a => dict_insert m a.file_name a.download_link) []

/- get_file_name_to_download_links_from_tag of ue4ss.py. -/
def get_file_name_to_download_links_from_tag (st : Option RepositoryReleasesInfo) (tag : String) :
    Except SelectorError (List (String × String)) :=
  match st with
  | none => .error .catalogNotCached
  | some info =>
    match info.tags.find? fun t => t.tag == tag with
    | some tag_info => .ok (dict_of_assets tag_info.assets)
    | none => .ok []

/- Python link.lower(). -/
def lowerString (s : String) : String := { data := s.data.map Char.toLower }

/- Python substring containment (pat in s). -/
def listStartsWith : List Char → List Char → Bool
  | [], _ => true
  | _ :: _, [] => false
  | p :: ps, c :: cs => p == c && listStartsWith ps cs

def containsSublist (pat : List Char) : List Char → Bool
  | [] => listStartsWith pat []
  | c :: rest => listStartsWith pat (c :: rest) || containsSublist pat rest

/- The naming heuristic of install_latest_ue4ss_to_dir / install_ue4ss_to_dir:
   the download URL, lower-cased, must contain "ue4ss" and not "zdev". -/
def is_installable_link (link : String) : Bool :=
  containsSublist "ue4ss".data (lowerString link).data &&
    !(containsSublist "zdev".data (lowerString link).data)

/- The asset selection of install_latest_ue4ss_to_dir / install_ue4ss_to_dir:
   next(link for link in map.values() if heuristic) with None default, then a
   RuntimeError naming the tag if no link qualifies. -/
def select_installable_asset (tag : String) (m : List (String × String)) :
    Except SelectorError String :=
  match (m.map fun p => p.2).find? is_installable_link with
  | some link => .ok link
  | none => .error (.noCompatibleAsset tag)

/- Helper lemmas. -/

theorem find_first_true {α : Type} (p : α → Bool) :
    ∀ (l : List α) (i : Nat) (hi : i < l.length), p (l.get ⟨i, hi⟩) = true →
      (∀ j (hj : j < i), p (l.get ⟨j, Nat.lt_trans hj hi⟩) = false) →
      l.find? p = some (l.get ⟨i, hi⟩) := by
  intro l
  induction l with
  | nil => intro i hi; simp at hi
  | cons a rest ih =>
    intro i hi hp hprev
    cases i with
    | zero =>
      simp only [List.get_eq_getElem, List.getElem_cons_zero] at hp ⊢
      rw [List.find?_cons_of_pos _ hp]
    | succ n =>
      have ha : p a = false := by
        have := hprev 0 (Nat.succ_pos n)
        simpa using this
      rw [List.find?_cons_of_neg]
      · have hn : n < rest.length := Nat.lt_of_succ_lt_succ hi
        have := ih n hn (by simpa using hp)
          (fun j hj => by
            have := hprev (j + 1) (Nat.succ_lt_succ hj)
            simpa using this)
        simpa using this
      · simp [ha]

theorem fetch_pages_reaches_failure (code : Nat) (body : String) (rest : List PageResponse) :
    ∀ (good : List (List ApiRelease)), (∀ g ∈ good, g ≠ []) → ∀ acc,
      fetch_release_pages (good.map PageResponse.success ++ PageResponse.failure code body :: rest) acc =
        Except.error { status_code := code, body := body } := by
  intro good
  induction good with
  | nil => intro _ acc; rfl
  | cons g gs ih =>
    intro hne acc
    have hg : g ≠ [] := hne g (List.mem_cons_self g gs)
    match g, hg with
    | r :: rs, _ =>
      simpa [fetch_release_pages] using ih (fun x hx => hne x (List.mem_cons_of_mem _ hx)) (acc ++ r :: rs)

/- Claim theorems. -/

/-- Claim C1: select installable asset(tag): for every asset map, the
operation returns the download URL of the first entry in map insertion order
whose download URL case-insensitively contains "ue4ss" and does not contain
"zdev"; if no entry qualifies it fails with NoCompatibleAssetError naming
the tag. -/
theorem c1_select_installable_asset_first_match (tag : String) (m : List (String × String)) :
    ((∀ p ∈ m, is_installable_link p.2 = false) →
      select_installable_asset tag m = Except.error (SelectorError.noCompatibleAsset tag)) ∧
    ∀ i (hi : i < m.length), is_installable_link (m.get ⟨i, hi⟩).2 = true →
      (∀ j (hj : j < i), is_installable_link (m.get ⟨j, Nat.lt_trans hj hi⟩).2 = false) →
      select_installable_asset tag m = Except.ok (m.get ⟨i, hi⟩).2 := by
  constructor
  · intro hall
    have hnone : (m.map fun p => p.2).find? is_installable_link = none := by
      rw [List.find?_eq_none]
      intro x hx
      rcases List.mem_map.mp hx with ⟨p, hp, rfl⟩
      simp [hall p hp]
    simp [select_installable_asset, hnone]
  · intro i hi hp hprev
    have hi' : i < (m.map fun p => p.2).length := by simpa using hi
    have hget : (m.map fun p => p.2).get ⟨i, hi'⟩ = (m.get ⟨i, hi⟩).2 := by
      simp [List.get_eq_getElem, List.getElem_map]
    have hsome : (m.map fun p => p.2).find? is_installable_link = some ((m.get ⟨i, hi⟩).2) := by
      have := find_first_true is_installable_link (m.map fun p => p.2) i hi'
        (by rw [hget]; exact hp)
        (fun j hj => by
          have hj' : j < m.length := Nat.lt_trans hj hi
          have hgetj : (m.map fun p => p.2).get ⟨j, Nat.lt_trans hj hi'⟩ = (m.get ⟨j, hj'⟩).2 := by
            simp [List.get_eq_getElem, List.getElem_map]
          rw [hgetj]
          exact hprev j hj)
      rw [hget] at this
      exact this
    simp [select_installable_asset, hsome]

/-- Witness for C1 at the asset map of testable property 7 of the spec: the
first URL is selected. -/
theorem c1_witness :
    select_installable_asset "v1.0"
        [("UE4SS_v1.zip", "http://x/ue4ss_v1.zip"), ("UE4SS_zDEV_v1.zip", "http://x/ue4ss_zdev_v1.zip")] =
      Except.ok "http://x/ue4ss_v1.zip" :=
  (c1_select_installable_asset_first_match "v1.0"
      [("UE4SS_v1.zip", "http://x/ue4ss_v1.zip"), ("UE4SS_zDEV_v1.zip", "http://x/ue4ss_zdev_v1.zip")]).2
    0 (by decide) (by decide) (fun j hj => absurd hj (Nat.not_lt_zero j))

/-- Claim C4: default tag() on a populated catalog returns the first element
of normal-release tags with assets(), and fails with NoDefaultTagError (the
index-out-of-range on the empty list) when that list is empty. -/
theorem c4_default_tag (info : RepositoryReleasesInfo) (l : List String)
    (h : get_normal_release_tags_with_assets (some info) = Except.ok l) :
    (∀ t, get_default_ue4ss_version_tag (some info) = Except.ok t ↔ l.head? = some t) ∧
      (get_default_ue4ss_version_tag (some info) = Except.error SelectorError.noDefaultTag ↔ l = []) := by
  cases l with
  | nil => simp [get_default_ue4ss_version_tag, h]
  | cons t ts => simp [get_default_ue4ss_version_tag, h]

/-- Witness for C4 on a catalog with one normal tag with assets. -/
theorem c4_witness :
    get_default_ue4ss_version_tag
        (some { owner := "o", repo := "r",
                tags := [{ tag := "v1", is_prerelease := false, is_latest := true,
                           has_assets := true, created_at := "2024", assets := [] }] }) =
      Except.ok "v1" :=
  ((c4_default_tag
        { owner := "o", repo := "r",
          tags := [{ tag := "v1", is_prerelease := false, is_latest := true,
                     has_assets := true, created_at := "2024", assets := [] }] }
        ["v1"] rfl).1 "v1").mpr rfl

/-- Counterexample for C5: default tag, called before fetch-and-cache has
succeeded, does not fail with CatalogNotCachedError: it returns the literal
string "latest". -/
theorem c5_counterexample :
    get_default_ue4ss_version_tag none = Except.ok "latest" ∧
      get_default_ue4ss_version_tag none ≠ Except.error SelectorError.catalogNotCached :=
  ⟨rfl, fun h => Except.noConfusion h⟩

/-- Claim C5 (amended): every Release Selector operation except default tag
(tags with assets, prerelease tags with assets, normal-release tags with
assets, asset map for tag) fails with CatalogNotCachedError when invoked on
the unset catalog state; default tag instead returns the literal "latest". -/
theorem c5_uncached_selectors (tag : String) :
    get_all_tags_with_assets none = Except.error SelectorError.catalogNotCached ∧
    get_pre_release_tags_with_assets none = Except.error SelectorError.catalogNotCached ∧
    get_normal_release_tags_with_assets none = Except.error SelectorError.catalogNotCached ∧
    get_file_name_to_download_links_from_tag none tag = Except.error SelectorError.catalogNotCached ∧
    get_default_ue4ss_version_tag none = Except.ok "latest" :=
  ⟨rfl, rfl, rfl, rfl, rfl⟩

/-- Claim C6: fetch and cache catalog is idempotent after success: on a
populated state it leaves the held catalog unchanged and performs no fetch,
for every owner/repo argument pair and every network behavior. -/
theorem c6_cache_idempotent_after_success (info : RepositoryReleasesInfo) (owner repo : String)
    (pages : List PageResponse) :
    cache_repo_releases_info (some info) owner repo pages =
      { state := some info, fetched := false, error := none } := rfl

/-- Claim C7: when the pagination run reaches a page request that returns a
non-success status (every earlier page a non-empty success), fetch and cache
catalog fails with RemoteAPIError carrying that status and response body, and
the process-wide catalog state remains unset. -/
theorem c7_fetch_failure_leaves_state_unset (owner repo : String)
    (good : List (List ApiRelease)) (code : Nat) (body : String) (rest : List PageResponse)
    (hgood : ∀ g ∈ good, g ≠ []) :
    cache_repo_releases_info none owner repo
        (good.map PageResponse.success ++ PageResponse.failure code body :: rest) =
      { state := none, fetched := true, error := some { status_code := code, body := body } } := by
  have hfetch := fetch_pages_reaches_failure code body rest good hgood []
  simp [cache_repo_releases_info, get_all_release_assets, hfetch]

/-- Witness for C7: one non-empty page followed by a 403 page. -/
theorem c7_witness :
    cache_repo_releases_info none "UE4SS-RE" "RE-UE4SS"
        ([[{ tag_name := "v1", prerelease := false, created_at := "2024", assets := [] }]].map
            PageResponse.success ++ PageResponse.failure 403 "rate limited" :: []) =
      { state := none, fetched := true,
        error := some { status_code := 403, body := "rate limited" } } :=
  c7_fetch_failure_leaves_state_unset "UE4SS-RE" "RE-UE4SS"
    [[{ tag_name := "v1", prerelease := false, created_at := "2024", assets := [] }]]
    403 "rate limited" [] (by decide)

/- Lemmas about the lexicographic created_at comparison. -/

theorem charListLe_refl : ∀ l, charListLe l l = true := by
  intro l
  induction l with
  | nil => rfl
  | cons c rest ih => simp [charListLe, ih]

theorem charListLe_cons_iff (x y : Char) (xs ys : List Char) :
    charListLe (x :: xs) (y :: ys) = true ↔
      x.toNat < y.toNat ∨ (x.toNat = y.toNat ∧ charListLe xs ys = true) := by
  simp only [charListLe]
  by_cases h1 : x.toNat < y.toNat
  · simp [h1]
  · by_cases h2 : y.toNat < x.toNat
    · simp [h1, h2]
      omega
    · have hxy : x.toNat = y.toNat := by omega
      simp [h1, h2, hxy]

theorem charListLe_total : ∀ a b, charListLe a b = true ∨ charListLe b a = true := by
  intro a
  induction a with
  | nil => intro b; exact Or.inl rfl
  | cons x xs ih =>
    intro b
    cases b with
    | nil => exact Or.inr rfl
    | cons y ys =>
      rcases Nat.lt_trichotomy x.toNat y.toNat with h | h | h
      · exact Or.inl ((charListLe_cons_iff x y xs ys).mpr (Or.inl h))
      · rcases ih ys with h' | h'
        · exact Or.inl ((charListLe_cons_iff x y xs ys).mpr (Or.inr ⟨h, h'⟩))
        · exact Or.inr ((charListLe_cons_iff y x ys xs).mpr (Or.inr ⟨h.symm, h'⟩))
      · exact Or.inr ((charListLe_cons_iff y x ys xs).mpr (Or.inl h))

theorem charListLe_trans : ∀ a b c, charListLe a b = true → charListLe b c = true →
    charListLe a c = true := by
  intro a
  induction a with
  | nil => intro b c _ _; rfl
  | cons x xs ih =>
    intro b c hab hbc
    cases b with
    | nil => simp [charListLe] at hab
    | cons y ys =>
      cases c with
      | nil => simp [charListLe] at hbc
      | cons z zs =>
        rw [charListLe_cons_iff] at hab hbc ⊢
        rcases hab with h1 | ⟨h1, h1r⟩
        · rcases hbc with h2 | ⟨h2, _⟩
          · exact Or.inl (Nat.lt_trans h1 h2)
          · exact Or.inl (by omega)
        · rcases hbc with h2 | ⟨h2, h2r⟩
          · exact Or.inl (by omega)
          · exact Or.inr ⟨by omega, ih ys zs h1r h2r⟩

theorem strLe_refl (a : String) : strLe a a = true := charListLe_refl a.data

theorem strLe_total (a b : String) : strLe a b = true ∨ strLe b a = true :=
  charListLe_total a.data b.data

theorem strLe_trans {a b c : String} (h1 : strLe a b = true) (h2 : strLe b c = true) :
    strLe a c = true := charListLe_trans a.data b.data c.data h1 h2

/- Lemmas about the stable descending sort of releases. -/

theorem insertRelease_perm (r : ApiRelease) :
    ∀ l, (insertRelease r l).Perm (r :: l) := by
  intro l
  induction l with
  | nil => exact List.Perm.refl _
  | cons x xs ih =>
    cases hb : strLe x.created_at r.created_at with
    | true => simp [insertRelease, hb]
    | false =>
      have h1 : (x :: insertRelease r xs).Perm (x :: r :: xs) := ih.cons x
      have h2 : (x :: r :: xs).Perm (r :: x :: xs) := List.Perm.swap r x xs
      simpa [insertRelease, hb] using h1.trans h2

theorem sortReleasesDesc_perm : ∀ l, (sortReleasesDesc l).Perm l := by
  intro l
  induction l with
  | nil => exact List.Perm.refl _
  | cons r rs ih =>
    exact (insertRelease_perm r (sortReleasesDesc rs)).trans (ih.cons r)

theorem pairwise_insertRelease (r : ApiRelease) :
    ∀ l, l.Pairwise (fun a b => strLe b.created_at a.created_at = true) →
      (insertRelease r l).Pairwise (fun a b => strLe b.created_at a.created_at = true) := by
  intro l
  induction l with
  | nil => intro _; simp [insertRelease]
  | cons x xs ih =>
    intro h
    rcases List.pairwise_cons.mp h with ⟨hx, hxs⟩
    cases hb : strLe x.created_at r.created_at with
    | true =>
      simp only [insertRelease, hb, if_true]
      refine List.pairwise_cons.mpr ⟨?_, h⟩
      intro y hy
      rcases List.mem_cons.mp hy with rfl | hy'
      · exact hb
      · exact strLe_trans (hx y hy') hb
    | false =>
      simp only [insertRelease, hb, Bool.false_eq_true, if_false]
      refine List.pairwise_cons.mpr ⟨?_, ih hxs⟩
      intro y hy
      rcases List.mem_cons.mp ((insertRelease_perm r xs).mem_iff.mp hy) with rfl | hy'
      · rcases strLe_total x.created_at y.created_at with h' | h'
        · exact absurd h' (by simp [hb])
        · exact h'
      · exact hx y hy'

theorem sortReleasesDesc_sorted :
    ∀ l, (sortReleasesDesc l).Pairwise (fun a b => strLe b.created_at a.created_at = true) := by
  intro l
  induction l with
  | nil => simp [sortReleasesDesc]
  | cons r rs ih => exact pairwise_insertRelease r (sortReleasesDesc rs) ih

theorem insertRelease_decomp (r : ApiRelease) :
    ∀ l : List ApiRelease, ∃ s₁ s₂, insertRelease r l = s₁ ++ r :: s₂ ∧ l = s₁ ++ s₂ ∧
      ∀ x ∈ s₁, strLe x.created_at r.created_at = false := by
  intro l
  induction l with
  | nil => exact ⟨[], [], rfl, rfl, by simp⟩
  | cons x xs ih =>
    cases hb : strLe x.created_at r.created_at with
    | true => exact ⟨[], x :: xs, by simp [insertRelease, hb], rfl, by simp⟩
    | false =>
      rcases ih with ⟨s₁, s₂, h1, h2, h3⟩
      refine ⟨x :: s₁, s₂, ?_, by simp [h2], ?_⟩
      · simp [insertRelease, hb, h1]
      · intro z hz
        rcases List.mem_cons.mp hz with rfl | hz'
        · exact hb
        · exact h3 z hz'

theorem sublist_insertRelease (r : ApiRelease) (l sub : List ApiRelease)
    (h : List.Sublist sub l) : List.Sublist sub (insertRelease r l) := by
  rcases insertRelease_decomp r l with ⟨s₁, s₂, h1, h2, _⟩
  rw [h1]
  rw [h2] at h
  exact h.trans ((List.sublist_cons_self r s₂).append_left s₁)

theorem sublist_right_of_disjoint {α : Type} :
    ∀ (s₁ sub s₂ : List α), List.Sublist sub (s₁ ++ s₂) → (∀ a ∈ sub, a ∉ s₁) →
      List.Sublist sub s₂ := by
  intro s₁
  induction s₁ with
  | nil => intro sub s₂ h _; simpa using h
  | cons y s₁ ih =>
    intro sub s₂ h hnot
    cases h with
    | cons _ h' =>
      exact ih sub s₂ h' (fun a ha hin => hnot a ha (List.mem_cons_of_mem _ hin))
    | cons₂ _ h' =>
      exact absurd (List.mem_cons_self y s₁) (hnot y (List.mem_cons_self y _))

theorem sortReleasesDesc_stable :
    ∀ (l sub : List ApiRelease), List.Sublist sub l →
      sub.Pairwise (fun a b => a.created_at = b.created_at) →
      List.Sublist sub (sortReleasesDesc l) := by
  intro l
  induction l with
  | nil =>
    intro sub h _
    have : sub = [] := List.sublist_nil.mp h
    subst this
    exact List.nil_sublist _
  | cons x xs ih =>
    intro sub h hpw
    cases h with
    | cons _ h' =>
      exact sublist_insertRelease x (sortReleasesDesc xs) sub (ih sub h' hpw)
    | cons₂ _ h' =>
      rcases List.pairwise_cons.mp hpw with ⟨hxk, hpw'⟩
      have hsub' := ih _ h' hpw'
      rcases insertRelease_decomp x (sortReleasesDesc xs) with ⟨s₁, s₂, h1, h2, h3⟩
      rw [sortReleasesDesc, h1]
      rw [h2] at hsub'
      have hs₂ := sublist_right_of_disjoint s₁ _ s₂ hsub' (by
        intro a ha hin
        have hk : x.created_at = a.created_at := hxk a ha
        have hf := h3 a hin
        rw [hk, strLe_refl a.created_at] at hf
        exact Bool.noConfusion hf)
      exact (hs₂.cons₂ x).trans (List.sublist_append_right s₁ (x :: s₂))

/- Lemmas about the latest-tag computation. -/

theorem firstNormalTag_mem :
    ∀ (l : List ApiRelease) (t : String), firstNormalTag l = some t →
      t ∈ l.map ApiRelease.tag_name := by
  intro l
  induction l with
  | nil => intro t h; exact Option.noConfusion h
  | cons r rest ih =>
    intro t h
    cases hb : r.prerelease with
    | true =>
      rw [firstNormalTag, hb] at h
      simp only [if_true] at h
      exact List.mem_cons_of_mem _ (ih t h)
    | false =>
      rw [firstNormalTag, hb] at h
      simp only [Bool.false_eq_true, if_false, Option.some.injEq] at h
      subst h
      exact List.mem_cons_self _ _
theorem firstNormalTag_char :
    ∀ (l : List ApiRelease), (l.map ApiRelease.tag_name).Nodup →
      ∀ k (hk : k < l.length),
        (firstNormalTag l = some (l.get ⟨k, hk⟩).tag_name ↔
          ((l.get ⟨k, hk⟩).prerelease = false ∧
            ∀ j (hj : j < k), (l.get ⟨j, Nat.lt_trans hj hk⟩).prerelease = true)) := by
  intro l
  induction l with
  | nil => intro _ k hk; simp at hk
  | cons r rest ih =>
    intro hnd k hk
    rw [List.map_cons, List.nodup_cons] at hnd
    rcases hnd with ⟨hni, hnd'⟩
    cases hb : r.prerelease with
    | false =>
      cases k with
      | zero =>
        simp [List.get_eq_getElem, firstNormalTag, hb]
      | succ n =>
        have hn : n < rest.length := Nat.lt_of_succ_lt_succ hk
        simp only [List.get_eq_getElem, List.getElem_cons_succ, firstNormalTag, hb,
          Bool.false_eq_true, if_false]
        constructor
        · intro h
          rw [Option.some.injEq] at h
          have hmem : rest[n].tag_name ∈ rest.map ApiRelease.tag_name :=
            List.mem_map_of_mem ApiRelease.tag_name (List.getElem_mem hn)
          rw [← h] at hmem
          exact absurd hmem hni
        · intro hcon
          have h0 := hcon.2 0 (Nat.succ_pos n)
          simp only [List.get_eq_getElem, List.getElem_cons_zero] at h0
          rw [h0] at hb
          exact Bool.noConfusion hb
    | true =>
      cases k with
      | zero =>
        simp only [List.get_eq_getElem, List.getElem_cons_zero, firstNormalTag, hb, if_true]
        constructor
        · intro h
          exact absurd (firstNormalTag_mem rest r.tag_name h) hni
        · intro hcon
          exact Bool.noConfusion hcon.1
      | succ n =>
        have hn : n < rest.length := Nat.lt_of_succ_lt_succ hk
        have hrec := ih hnd' n hn
        simp only [List.get_eq_getElem] at hrec
        simp only [List.get_eq_getElem, List.getElem_cons_succ, firstNormalTag, hb, if_true]
        rw [hrec]
        constructor
        · intro hcon
          refine ⟨hcon.1, fun j hj => ?_⟩
          cases j with
          | zero => simpa using hb
          | succ m =>
            have hm : m < n := Nat.lt_of_succ_lt_succ hj
            simpa using hcon.2 m hm
        · intro hcon
          refine ⟨hcon.1, fun j hj => ?_⟩
          have := hcon.2 (j + 1) (Nat.succ_lt_succ hj)
          simpa using this

theorem countP_latest_le_one (t : String) :
    ∀ l : List ApiRelease, (l.map ApiRelease.tag_name).Nodup →
      List.countP (fun r => some t == some r.tag_name) l ≤ 1 := by
  intro l
  induction l with
  | nil => intro _; simp
  | cons r rest ih =>
    intro hnd
    rw [List.map_cons, List.nodup_cons] at hnd
    rcases hnd with ⟨hni, hnd'⟩
    rw [List.countP_cons]
    cases hb : (some t == some r.tag_name) with
    | false => simpa [hb] using ih hnd'
    | true =>
      have ht : t = r.tag_name := by simpa using hb
      have hzero : List.countP (fun x => some t == some x.tag_name) rest = 0 := by
        rw [List.countP_eq_zero]
        intro x hx hpx
        have hx2 : t = x.tag_name := by simpa using hpx
        rw [ht] at hx2
        exact hni (hx2 ▸ List.mem_map_of_mem ApiRelease.tag_name hx)
      rw [hzero]
      simp [hb]

/-- Counterexample for C2: a catalog built from pages containing two releases
with the same tag name has two entries with isLatest true, because is_latest
compares tag names against the latest tag name. -/
theorem c2_counterexample :
    ¬ (List.countP (fun ti => ti.is_latest)
        (buildReleasesInfo "UE4SS-RE" "RE-UE4SS"
            [{ tag_name := "v1", prerelease := false, created_at := "2024", assets := [] },
             { tag_name := "v1", prerelease := false, created_at := "2024", assets := [] }]).tags ≤ 1) := by
  decide

/-- Claim C2 (amended): for every catalog built from releases whose tag names
are pairwise distinct, at most one tag has isLatest = true, and a tag has
isLatest = true exactly when it is the first tag in creation-descending order
whose isPrerelease is false. -/
theorem c2_is_latest_unique (owner repo : String) (rels : List ApiRelease)
    (hnd : (rels.map ApiRelease.tag_name).Nodup) :
    List.countP (fun ti => ti.is_latest) (buildReleasesInfo owner repo rels).tags ≤ 1 ∧
    ∀ k (hk : k < (buildReleasesInfo owner repo rels).tags.length),
      (((buildReleasesInfo owner repo rels).tags.get ⟨k, hk⟩).is_latest = true ↔
        ((((buildReleasesInfo owner repo rels).tags.get ⟨k, hk⟩).is_prerelease = false) ∧
          ∀ j (hj : j < k),
            ((buildReleasesInfo owner repo rels).tags.get ⟨j, Nat.lt_trans hj hk⟩).is_prerelease = true)) := by
  have hnds : ((sortReleasesDesc rels).map ApiRelease.tag_name).Nodup :=
    ((sortReleasesDesc_perm rels).map ApiRelease.tag_name).nodup_iff.mpr hnd
  constructor
  · show List.countP (fun ti => ti.is_latest)
      ((sortReleasesDesc rels).map (mkReleaseAssetInfo (firstNormalTag (sortReleasesDesc rels)))) ≤ 1
    rw [List.countP_map]
    cases hlt : firstNormalTag (sortReleasesDesc rels) with
    | none =>
      have hz : List.countP ((fun ti => ti.is_latest) ∘ mkReleaseAssetInfo none)
          (sortReleasesDesc rels) = 0 := by
        rw [List.countP_eq_zero]
        intro a _
        simp [mkReleaseAssetInfo]
      rw [hz]
      exact Nat.zero_le 1
    | some t =>
      have heq : ((fun ti => ti.is_latest) ∘ mkReleaseAssetInfo (some t)) =
          fun r => some t == some r.tag_name := rfl
      rw [heq]
      exact countP_latest_le_one t _ hnds
  · intro k hk
    have hk' : k < (sortReleasesDesc rels).length := by
      simpa [buildReleasesInfo] using hk
    have hchar := firstNormalTag_char (sortReleasesDesc rels) hnds k hk'
    simp only [List.get_eq_getElem] at hchar
    simp only [buildReleasesInfo, List.get_eq_getElem, List.getElem_map, mkReleaseAssetInfo,
      beq_iff_eq, Option.some.injEq] at hchar ⊢
    exact hchar

/-- Witness for C2 on a two-release catalog with distinct tag names. -/
theorem c2_witness :
    List.countP (fun ti => ti.is_latest)
        (buildReleasesInfo "o" "r"
            [{ tag_name := "v2", prerelease := false, created_at := "2024-02", assets := [] },
             { tag_name := "v1", prerelease := true, created_at := "2024-01", assets := [] }]).tags ≤ 1 :=
  (c2_is_latest_unique "o" "r"
      [{ tag_name := "v2", prerelease := false, created_at := "2024-02", assets := [] },
       { tag_name := "v1", prerelease := true, created_at := "2024-01", assets := [] }]
      (by decide)).1

/-- Claim C8: for every sequence of fetched release entries, the catalog tags
are sorted by createdAt non-increasing (lexicographic code-point order, as
Python compares the timestamp strings), and any entries with pairwise equal
createdAt timestamps keep their relative order from the API response. -/
theorem c8_tags_sorted_descending_stable (owner repo : String) (rels : List ApiRelease) :
    ((buildReleasesInfo owner repo rels).tags).Pairwise
        (fun a b => strLe b.created_at a.created_at = true) ∧
    ∀ sub : List ApiRelease, List.Sublist sub rels →
      sub.Pairwise (fun a b => a.created_at = b.created_at) →
      List.Sublist
        (sub.map (mkReleaseAssetInfo (firstNormalTag (sortReleasesDesc rels))))
        (buildReleasesInfo owner repo rels).tags := by
  constructor
  · show ((sortReleasesDesc rels).map
        (mkReleaseAssetInfo (firstNormalTag (sortReleasesDesc rels)))).Pairwise _
    rw [List.pairwise_map]
    exact sortReleasesDesc_sorted rels
  · intro sub hsub hpw
    exact (sortReleasesDesc_stable rels sub hsub hpw).map _

/-- Witness for C8: two releases with equal timestamps keep their order. -/
theorem c8_witness :
    List.Sublist
      ([({ tag_name := "a", prerelease := false, created_at := "2024", assets := [] } : ApiRelease),
        { tag_name := "b", prerelease := true, created_at := "2024", assets := [] }].map
          (mkReleaseAssetInfo (firstNormalTag (sortReleasesDesc
            [{ tag_name := "a", prerelease := false, created_at := "2024", assets := [] },
             { tag_name := "b", prerelease := true, created_at := "2024", assets := [] }]))))
      (buildReleasesInfo "o" "r"
          [{ tag_name := "a", prerelease := false, created_at := "2024", assets := [] },
           { tag_name := "b", prerelease := true, created_at := "2024", assets := [] }]).tags :=
  (c8_tags_sorted_descending_stable "o" "r"
      [{ tag_name := "a", prerelease := false, created_at := "2024", assets := [] },
       { tag_name := "b", prerelease := true, created_at := "2024", assets := [] }]).2
    [{ tag_name := "a", prerelease := false, created_at := "2024", assets := [] },
     { tag_name := "b", prerelease := true, created_at := "2024", assets := [] }]
    (List.Sublist.refl _) (by decide)

/- Lemmas about trimming. -/

theorem trimLeft_length : ∀ l : List Char, (trimLeft l).length ≤ l.length := by
  intro l
  induction l with
  | nil => exact Nat.le_refl 0
  | cons c rest ih =>
    rw [trimLeft]
    cases hsp : isSpaceChar c with
    | true => simpa using Nat.le_trans ih (Nat.le_succ _)
    | false => simp

theorem trimRight_length : ∀ l : List Char, (trimRight l).length ≤ l.length := by
  intro l
  induction l with
  | nil => exact Nat.le_refl 0
  | cons c rest ih =>
    rw [trimRight]
    by_cases hr : trimRight rest = []
    · cases hsp : isSpaceChar c <;> simp [hr, hsp]
    · simpa [hr] using ih

theorem trimLeft_append (l₁ l₂ : List Char) :
    trimLeft (l₁ ++ l₂) = if trimLeft l₁ = [] then trimLeft l₂ else trimLeft l₁ ++ l₂ := by
  induction l₁ with
  | nil => simp [trimLeft]
  | cons c rest ih =>
    cases hsp : isSpaceChar c with
    | true => simpa [trimLeft, hsp] using ih
    | false => simp [trimLeft, hsp]

theorem trimRight_append (l₁ l₂ : List Char) :
    trimRight (l₁ ++ l₂) = if trimRight l₂ = [] then trimRight l₁ else l₁ ++ trimRight l₂ := by
  induction l₁ with
  | nil =>
    by_cases h : trimRight l₂ = [] <;> simp [h, trimRight]
  | cons c rest ih =>
    by_cases h : trimRight l₂ = []
    · rw [if_pos h] at ih ⊢
      rw [List.cons_append, trimRight, ih]
      conv_rhs => rw [trimRight]
    · rw [if_neg h] at ih ⊢
      have hne : rest ++ trimRight l₂ ≠ [] := by
        intro hx
        exact h (List.append_eq_nil.mp hx).2
      rw [List.cons_append, trimRight, ih, if_neg hne, List.cons_append]

theorem trimLeft_idem (l : List Char) : trimLeft (trimLeft l) = trimLeft l := by
  induction l with
  | nil => rfl
  | cons c rest ih =>
    cases hsp : isSpaceChar c with
    | true => simpa [trimLeft, hsp] using ih
    | false => simp [trimLeft, hsp]

theorem trimRight_cons_shape (c : Char) (l : List Char) :
    trimRight (c :: l) = [] ∨ ∃ t, trimRight (c :: l) = c :: t := by
  rw [trimRight]
  by_cases hr : trimRight l = []
  · cases hsp : isSpaceChar c with
    | true => exact Or.inl (by simp [hr, hsp])
    | false => exact Or.inr ⟨[], by simp [hr, hsp]⟩
  · exact Or.inr ⟨trimRight l, by simp [hr]⟩

theorem trimRight_idem (l : List Char) : trimRight (trimRight l) = trimRight l := by
  induction l with
  | nil => rfl
  | cons c rest ih =>
    rw [trimRight]
    by_cases hr : trimRight rest = []
    · cases hsp : isSpaceChar c with
      | true => simp [hr, hsp, trimRight]
      | false => simp [hr, hsp, trimRight]
    · simp only [if_neg hr]
      rw [trimRight, ih, if_neg hr]

theorem trimLeft_head_nonspace (l : List Char) (c : Char) (t : List Char)
    (h : trimLeft l = c :: t) : isSpaceChar c = false := by
  induction l with
  | nil => exact List.noConfusion h
  | cons x rest ih =>
    rw [trimLeft] at h
    by_cases hsp : isSpaceChar x
    · rw [if_pos hsp] at h
      exact ih h
    · rw [if_neg hsp] at h
      cases h
      exact Bool.eq_false_iff.mpr hsp

theorem trimLeft_cons_nonspace (c : Char) (l : List Char) (h : isSpaceChar c = false) :
    trimLeft (c :: l) = c :: l := by
  simp [trimLeft, h]

theorem trimLeft_trimRight (l : List Char) (h : trimLeft l = l) :
    trimLeft (trimRight l) = trimRight l := by
  cases l with
  | nil => rfl
  | cons c rest =>
    have hsp : isSpaceChar c = false := trimLeft_head_nonspace (c :: rest) c rest h
    rcases trimRight_cons_shape c rest with h1 | ⟨t, h1⟩
    · rw [h1]; rfl
    · rw [h1]
      exact trimLeft_cons_nonspace c t hsp

theorem strip_idem (l : List Char) : strip (strip l) = strip l := by
  rw [strip, strip, trimLeft_trimRight (trimLeft l) (trimLeft_idem l), trimRight_idem]

theorem strip_trimLeft (l : List Char) : trimLeft (strip l) = strip l :=
  trimLeft_trimRight (trimLeft l) (trimLeft_idem l)

theorem strip_trimRight (l : List Char) : trimRight (strip l) = strip l :=
  trimRight_idem (trimLeft l)

theorem trimLeft_eq_of_length (l : List Char) (h : (trimLeft l).length = l.length) :
    trimLeft l = l := by
  induction l with
  | nil => rfl
  | cons c rest ih =>
    by_cases hsp : isSpaceChar c
    · exfalso
      rw [trimLeft, if_pos hsp] at h
      have hle := trimLeft_length rest
      rw [List.length_cons] at h
      omega
    · rw [trimLeft, if_neg hsp]

theorem trimRight_eq_of_length (l : List Char) (h : (trimRight l).length = l.length) :
    trimRight l = l := by
  induction l with
  | nil => rfl
  | cons c rest ih =>
    by_cases hr : trimRight rest = []
    · rw [trimRight, if_pos hr] at h ⊢
      cases hsp : isSpaceChar c with
      | true =>
        rw [hsp] at h
        simp at h
      | false =>
        rw [hsp] at h
        simp at h
        subst h
        simp
    · rw [trimRight, if_neg hr] at h ⊢
      rw [List.length_cons, List.length_cons] at h
      have hlen : (trimRight rest).length = rest.length := by omega
      rw [ih hlen]

theorem strip_eq_self_parts (l : List Char) (h : strip l = l) :
    trimLeft l = l ∧ trimRight l = l := by
  have h1 : (trimLeft l).length ≤ l.length := trimLeft_length l
  have h2 : (trimRight (trimLeft l)).length ≤ (trimLeft l).length := trimRight_length _
  rw [strip] at h
  have hlen : l.length = (trimRight (trimLeft l)).length := by rw [h]
  have htl : trimLeft l = l := trimLeft_eq_of_length l (by omega)
  refine ⟨htl, ?_⟩
  rw [htl] at h
  exact h

theorem mem_trimRight (a : Char) : ∀ l, a ∈ trimRight l → a ∈ l := by
  intro l
  induction l with
  | nil => intro h; exact absurd h (List.not_mem_nil a)
  | cons c rest ih =>
    intro h
    rw [trimRight] at h
    by_cases hr : trimRight rest = []
    · rw [if_pos hr] at h
      by_cases hsp : isSpaceChar c = true
      · rw [if_pos hsp] at h
        exact absurd h (List.not_mem_nil a)
      · rw [if_neg hsp] at h
        rw [List.mem_singleton.mp h]
        exact List.mem_cons_self _ _
    · rw [if_neg hr] at h
      rcases List.mem_cons.mp h with rfl | h'
      · exact List.mem_cons_self _ _
      · exact List.mem_cons_of_mem _ (ih h')

theorem hasEq_append (l₁ l₂ : List Char) : hasEq (l₁ ++ l₂) = (hasEq l₁ || hasEq l₂) := by
  induction l₁ with
  | nil => simp [hasEq]
  | cons c rest ih => simp [hasEq, ih, Bool.or_assoc]

theorem hasEq_iff_mem : ∀ l, hasEq l = true ↔ '=' ∈ l := by
  intro l
  induction l with
  | nil => simp [hasEq]
  | cons c rest ih =>
    rw [hasEq, Bool.or_eq_true, beq_iff_eq, ih, List.mem_cons]
    exact or_congr ⟨fun h => h.symm, fun h => h.symm⟩ Iff.rfl

theorem headIs_cons (ch c : Char) (l : List Char) : headIs ch (c :: l) = (c == ch) := rfl

theorem lastIs_cons_cons (ch x y : Char) (t : List Char) :
    lastIs ch (x :: y :: t) = lastIs ch (y :: t) := rfl

theorem lastIs_append (ch : Char) : ∀ (l v : List Char), v ≠ [] →
    lastIs ch (l ++ v) = lastIs ch v := by
  intro l
  induction l with
  | nil => intro v _; rfl
  | cons x l ih =>
    intro v hv
    rcases hlv : l ++ v with _ | ⟨y, t⟩
    · exact absurd (List.append_eq_nil.mp hlv).2 hv
    · rw [List.cons_append, hlv, lastIs_cons_cons, ← hlv, ih v hv]

theorem trimLeft_decomp : ∀ l : List Char, ∃ sp, l = sp ++ trimLeft l ∧
    ∀ c ∈ sp, isSpaceChar c = true := by
  intro l
  induction l with
  | nil => exact ⟨[], rfl, by simp⟩
  | cons c rest ih =>
    by_cases hsp : isSpaceChar c = true
    · rcases ih with ⟨sp, h1, h2⟩
      refine ⟨c :: sp, ?_, ?_⟩
      · rw [trimLeft, if_pos hsp, List.cons_append, ← h1]
      · intro d hd
        rcases List.mem_cons.mp hd with rfl | hd'
        · exact hsp
        · exact h2 d hd'
    · exact ⟨[], by simp [trimLeft, hsp], by simp⟩

theorem trimRight_eq_nil_iff : ∀ l : List Char, trimRight l = [] ↔
    ∀ c ∈ l, isSpaceChar c = true := by
  intro l
  induction l with
  | nil => simp [trimRight]
  | cons c rest ih =>
    rw [trimRight]
    by_cases hr : trimRight rest = []
    · rw [if_pos hr]
      by_cases hsp : isSpaceChar c = true
      · rw [if_pos hsp]
        constructor
        · intro _ d hd
          rcases List.mem_cons.mp hd with rfl | hd'
          · exact hsp
          · exact ih.mp hr d hd'
        · intro _; rfl
      · rw [if_neg hsp]
        constructor
        · intro hx
          exact absurd hx (by simp)
        · intro hall
          exact absurd (hall c (List.mem_cons_self c rest)) hsp
    · rw [if_neg hr]
      constructor
      · intro hx
        exact absurd hx (by simp)
      · intro hall
        exact absurd (ih.mpr (fun d hd => hall d (List.mem_cons_of_mem c hd))) hr

theorem trimLeft_cons_self (c : Char) (x : List Char) (h : trimLeft (c :: x) = c :: x) :
    isSpaceChar c = false := by
  by_cases hsp : isSpaceChar c = true
  · exfalso
    rw [trimLeft, if_pos hsp] at h
    have := trimLeft_length x
    have hlen : (trimLeft x).length = (c :: x).length := by rw [h]
    rw [List.length_cons] at hlen
    omega
  · exact Bool.not_eq_true _ ▸ (by simpa using hsp)

theorem splitFirstEq_no_eq : ∀ (a b : List Char), hasEq a = false →
    splitFirstEq (a ++ '=' :: b) = (a, b) := by
  intro a
  induction a with
  | nil => intro b _; simp [splitFirstEq]
  | cons c a' ih =>
    intro b h
    rw [hasEq] at h
    rcases Bool.or_eq_false_iff.mp h with ⟨h1, h2⟩
    rw [List.cons_append, splitFirstEq, if_neg (by simp [h1]), ih b h2]

theorem splitFirstEq_decomp : ∀ l : List Char, hasEq l = true →
    l = (splitFirstEq l).1 ++ '=' :: (splitFirstEq l).2 ∧ hasEq (splitFirstEq l).1 = false := by
  intro l
  induction l with
  | nil => intro h; exact absurd h (by simp [hasEq])
  | cons c rest ih =>
    intro h
    by_cases hc : (c == '=') = true
    · have hc' : c = '=' := by simpa using hc
      subst hc'
      simp [splitFirstEq, hasEq]
    · rw [hasEq, Bool.or_eq_true] at h
      have h2 : hasEq rest = true := by
        rcases h with h1 | h1
        · exact absurd h1 hc
        · exact h1
      rcases ih h2 with ⟨ha, hb⟩
      rw [splitFirstEq, if_neg hc]
      constructor
      · conv_lhs => rw [ha]
        simp
      · show hasEq (c :: (splitFirstEq rest).1) = false
        rw [hasEq, Bool.or_eq_false_iff]
        exact ⟨by simpa using hc, hb⟩

/- Branch lemmas for parse_line, one per classification of the stripped line. -/

theorem parse_line_blank (st : ParseState) (line : List Char) (h : strip line = []) :
    parse_line st line = st := by
  simp [parse_line, h]

theorem parse_line_header (st : ParseState) (line : List Char)
    (h1 : headIs '[' (strip line) = true) (h2 : lastIs ']' (strip line) = true) :
    parse_line st line =
      { sections := st.sections ++ (match st.current with | some c => [c] | none => []),
        current := some { header := strip line, config_entries := [] },
        pending := [] } := by
  have hne : strip line ≠ [] := by
    intro hx
    rw [hx] at h1
    exact Bool.noConfusion h1
  simp [parse_line, hne, h1, h2]

theorem parse_line_comment_semi (st : ParseState) (line : List Char)
    (h0 : strip line ≠ [])
    (h1 : (headIs '[' (strip line) && lastIs ']' (strip line)) = false)
    (h2 : headIs ';' (strip line) = true) :
    parse_line st line = { st with pending := st.pending ++ [strip line] } := by
  simp [parse_line, h0, h1, h2]

theorem parse_line_comment_prose (st : ParseState) (line : List Char)
    (h0 : strip line ≠ [])
    (h1 : (headIs '[' (strip line) && lastIs ']' (strip line)) = false)
    (h2 : headIs ';' (strip line) = false) (h3 : hasEq (strip line) = false) :
    parse_line st line = { st with pending := st.pending ++ [strip line] } := by
  simp [parse_line, h0, h1, h2, h3]

theorem parse_line_entry_branch (st : ParseState) (line : List Char)
    (h0 : strip line ≠ [])
    (h1 : (headIs '[' (strip line) && lastIs ']' (strip line)) = false)
    (h2 : headIs ';' (strip line) = false) (h3 : hasEq (strip line) = true) :
    parse_line st line =
      { sections := st.sections,
        current := some (match st.current with
          | some c =>
            { header := c.header,
              config_entries := c.config_entries ++
                [{ key := strip (splitFirstEq (strip line)).1,
                   value := strip (splitFirstEq (strip line)).2,
                   comments := st.pending }] }
          | none =>
            { header := [],
              config_entries := [{ key := strip (splitFirstEq (strip line)).1,
                                   value := strip (splitFirstEq (strip line)).2,
                                   comments := st.pending }] }),
        pending := [] } := by
  cases hcur : st.current with
  | none => simp [parse_line, h0, h1, h2, h3, hcur]
  | some c => simp [parse_line, h0, h1, h2, h3, hcur]

/- Facts about the key and value halves of a parsed entry line. -/

theorem entry_key_facts (s k v : List Char) (hsplit : s = k ++ '=' :: v)
    (hkeq : hasEq k = false) (htl : trimLeft s = s) :
    trimLeft k = k ∧ strip k = trimRight k ∧ hasEq (strip k) = false ∧
    (strip k = [] ∨ ∃ c kt, strip k = c :: kt ∧ isSpaceChar c = false ∧
      headIs ';' s = (c == ';') ∧ headIs '[' s = (c == '[')) := by
  have hktl : trimLeft k = k := by
    cases hkc : k with
    | nil => rfl
    | cons c t =>
      subst hkc
      have hsc : s = c :: (t ++ '=' :: v) := by
        rw [hsplit, List.cons_append]
      have hnsp : isSpaceChar c = false := by
        apply trimLeft_cons_self c (t ++ '=' :: v)
        rw [← hsc]
        exact htl
      exact trimLeft_cons_nonspace c t hnsp
  have hkey : strip k = trimRight k := by
    rw [strip, hktl]
  have hkeyEq : hasEq (strip k) = false := by
    cases hx : hasEq (strip k) with
    | false => rfl
    | true =>
      exfalso
      have hm : '=' ∈ strip k := (hasEq_iff_mem _).mp hx
      rw [hkey] at hm
      have hm2 : '=' ∈ k := mem_trimRight _ _ hm
      rw [← hasEq_iff_mem] at hm2
      rw [hm2] at hkeq
      exact Bool.noConfusion hkeq
  refine ⟨hktl, hkey, hkeyEq, ?_⟩
  cases hkc : k with
  | nil =>
    left
    rw [hkc] at hkey
    rw [hkey]
    rfl
  | cons c t =>
    have hsc : s = c :: (t ++ '=' :: v) := by
      rw [hsplit, hkc, List.cons_append]
    have hnsp : isSpaceChar c = false := by
      apply trimLeft_cons_self c (t ++ '=' :: v)
      rw [← hsc]
      exact htl
    rw [hkc] at hkey
    rcases trimRight_cons_shape c t with h1 | ⟨kt, h1⟩
    · left
      rw [hkey, h1]
    · right
      refine ⟨c, kt, by rw [hkey, h1], hnsp, ?_, ?_⟩
      · rw [hsc, headIs_cons]
      · rw [hsc, headIs_cons]

theorem entry_value_facts (s k v : List Char) (hsplit : s = k ++ '=' :: v)
    (htr : trimRight s = s) :
    strip v = [] ∨
      (trimLeft (strip v) = strip v ∧ trimRight (strip v) = strip v ∧ strip v ≠ [] ∧
       ∀ ch, lastIs ch s = lastIs ch (strip v)) := by
  have hs2 : s = (k ++ ['=']) ++ v := by
    rw [hsplit]
    simp
  by_cases hrv : trimRight v = []
  · left
    have hv : v = [] := by
      have htr2 := trimRight_append (k ++ ['=']) v
      rw [← hs2, htr, if_pos hrv] at htr2
      have hlen1 := trimRight_length (k ++ ['='])
      have hlen2 : s.length = (k ++ ['=']).length + v.length := by
        conv_lhs => rw [hs2]
        rw [List.length_append]
      have hlen3 : s.length ≤ (k ++ ['=']).length := by
        rw [htr2]
        exact hlen1
      have hvl : v.length = 0 := by omega
      exact List.length_eq_zero.mp hvl
    rw [hv]
    rfl
  · have hvv : trimRight v = v := by
      have htr2 := trimRight_append (k ++ ['=']) v
      rw [← hs2, htr, if_neg hrv] at htr2
      conv_lhs at htr2 => rw [hs2]
      exact (List.append_cancel_left htr2).symm
    right
    obtain ⟨sp, hdec, hspspace⟩ := trimLeft_decomp v
    have hx : trimLeft v ≠ [] := by
      intro hxe
      rw [hxe, List.append_nil] at hdec
      have hnil : trimRight v = [] :=
        (trimRight_eq_nil_iff _).mpr (fun d hd => hspspace d (hdec ▸ hd))
      exact hrv hnil
    have hxx : trimRight (trimLeft v) = trimLeft v := by
      have h3 := trimRight_append sp (trimLeft v)
      rw [← hdec, hvv] at h3
      by_cases h4 : trimRight (trimLeft v) = []
      · exfalso
        rw [if_pos h4] at h3
        have hlen1 := trimRight_length sp
        have hlen2 : v.length = sp.length + (trimLeft v).length := by
          conv_lhs => rw [hdec]
          rw [List.length_append]
        have hlen3 : v.length ≤ sp.length := by
          rw [h3]
          exact hlen1
        have hxl : (trimLeft v).length = 0 := by omega
        exact hx (List.length_eq_zero.mp hxl)
      · rw [if_neg h4] at h3
        conv_lhs at h3 => rw [hdec]
        exact (List.append_cancel_left h3).symm
    have hval : strip v = trimLeft v := by
      rw [strip, hxx]
    refine ⟨?_, ?_, ?_, ?_⟩
    · rw [hval, trimLeft_idem]
    · rw [hval, hxx]
    · rw [hval]
      exact hx
    · intro ch
      rw [hval]
      have hvne : v ≠ [] := by
        intro hxe
        rw [hxe] at hrv
        exact hrv rfl
      have h5 : lastIs ch s = lastIs ch v := by
        conv_lhs => rw [hs2]
        exact lastIs_append ch _ _ hvne
      rw [h5]
      conv_lhs => rw [hdec]
      exact lastIs_append ch sp _ hx

theorem strip_key_space (c : Char) (kt : List Char) (hnsp : isSpaceChar c = false)
    (htrk : trimRight (c :: kt) = c :: kt) :
    strip ((c :: kt) ++ [' ']) = c :: kt := by
  rw [strip, List.cons_append, trimLeft_cons_nonspace _ _ hnsp, ← List.cons_append,
    trimRight_append, if_pos (by decide : trimRight [' '] = [])]
  exact htrk

theorem strip_space_value (vv : List Char) (h1 : trimLeft vv = vv) (h2 : trimRight vv = vv) :
    strip (' ' :: vv) = vv := by
  rw [strip, show trimLeft (' ' :: vv) = trimLeft vv from by
    rw [trimLeft, if_pos (by decide : isSpaceChar ' ' = true)], h1, h2]

theorem parse_line_emitted_core (s k v : List Char) (hsplit : s = k ++ '=' :: v)
    (hkeq : hasEq k = false) (hs : strip s = s)
    (hhdr : (headIs '[' s && lastIs ']' s) = false) (hsemi : headIs ';' s = false)
    (st : ParseState) :
    parse_line st (strip k ++ ' ' :: '=' :: ' ' :: strip v) =
      { sections := st.sections,
        current := some (match st.current with
          | some c =>
            { header := c.header,
              config_entries := c.config_entries ++
                [{ key := strip k, value := strip v, comments := st.pending }] }
          | none =>
            { header := [],
              config_entries := [{ key := strip k, value := strip v,
                                   comments := st.pending }] }),
        pending := [] } := by
  obtain ⟨htl, htr⟩ := strip_eq_self_parts s hs
  obtain ⟨hktl, hkey, hkeyEq, hkshape⟩ := entry_key_facts s k v hsplit hkeq htl
  have hvfacts := entry_value_facts s k v hsplit htr
  rcases hkshape with hK0 | ⟨c, kt, hK, hnsp, hsemiC, hhdrC⟩
  · rcases hvfacts with hV0 | ⟨hvl, hvr, hvne, hlink⟩
    · -- key empty, value empty
      rw [hK0, hV0, List.nil_append]
      rw [parse_line_entry_branch st [' ', '=', ' '] (by decide) (by decide) (by decide)
        (by decide)]
      rw [show strip (splitFirstEq (strip ([' ', '=', ' '] : List Char))).1 = [] from by decide,
        show strip (splitFirstEq (strip ([' ', '=', ' '] : List Char))).2 = [] from by decide]
    · -- key empty, value non-empty
      rw [hK0, List.nil_append]
      have hL : strip (' ' :: '=' :: ' ' :: strip v) = '=' :: ' ' :: strip v := by
        rw [strip, trimLeft, if_pos (by decide : isSpaceChar ' ' = true),
          trimLeft_cons_nonspace '=' _ (by decide)]
        rw [show ('=' :: ' ' :: strip v) = ['=', ' '] ++ strip v from rfl,
          trimRight_append, if_neg (by rw [hvr]; exact hvne)]
        rw [hvr]
      have h0 : strip (' ' :: '=' :: ' ' :: strip v) ≠ [] := by
        rw [hL]
        exact List.cons_ne_nil _ _
      have h1 : (headIs '[' (strip (' ' :: '=' :: ' ' :: strip v)) &&
          lastIs ']' (strip (' ' :: '=' :: ' ' :: strip v))) = false := by
        rw [hL, headIs_cons, show ('=' == '[') = false from by decide, Bool.false_and]
      have h2 : headIs ';' (strip (' ' :: '=' :: ' ' :: strip v)) = false := by
        rw [hL, headIs_cons]
        decide
      have h3 : hasEq (strip (' ' :: '=' :: ' ' :: strip v)) = true := by
        rw [hL, hasEq, show ('=' == '=') = true from by decide, Bool.true_or]
      rw [parse_line_entry_branch st _ h0 h1 h2 h3]
      rw [hL, show splitFirstEq ('=' :: ' ' :: strip v) = ([], ' ' :: strip v) from by
        rw [splitFirstEq, if_pos (by decide : ('=' == '=') = true)]]
      rw [show strip ([] : List Char) = [] from rfl, strip_space_value _ hvl hvr]
  · have hktr : trimRight (c :: kt) = c :: kt := by
      rw [← hK]
      exact strip_trimRight k
    rcases hvfacts with hV0 | ⟨hvl, hvr, hvne, hlink⟩
    · -- key non-empty, value empty
      rw [hK, hV0]
      have hL : strip ((c :: kt) ++ [' ', '=', ' ']) = (c :: kt) ++ [' ', '='] := by
        rw [strip, List.cons_append, trimLeft_cons_nonspace _ _ hnsp, ← List.cons_append,
          trimRight_append, if_neg (by decide : ¬(trimRight [' ', '=', ' '] = [])),
          show trimRight [' ', '=', ' '] = [' ', '='] from by decide]
      have h0 : strip ((c :: kt) ++ [' ', '=', ' ']) ≠ [] := by
        rw [hL, List.cons_append]
        exact List.cons_ne_nil _ _
      have h1 : (headIs '[' (strip ((c :: kt) ++ [' ', '=', ' '])) &&
          lastIs ']' (strip ((c :: kt) ++ [' ', '=', ' ']))) = false := by
        rw [hL, show (c :: kt) ++ [' ', '='] = ((c :: kt) ++ [' ']) ++ ['='] from by simp,
          lastIs_append ']' _ ['='] (List.cons_ne_nil _ _),
          show lastIs ']' ['='] = false from by decide, Bool.and_false]
      have h2 : headIs ';' (strip ((c :: kt) ++ [' ', '=', ' '])) = false := by
        rw [hL, List.cons_append, headIs_cons, ← hsemiC]
        exact hsemi
      have h3 : hasEq (strip ((c :: kt) ++ [' ', '=', ' '])) = true := by
        rw [hL, hasEq_append, show hasEq [' ', '='] = true from by decide, Bool.or_true]
      rw [parse_line_entry_branch st _ h0 h1 h2 h3]
      have hkspEq : hasEq ((c :: kt) ++ [' ']) = false := by
        rw [hasEq_append, show hasEq [' '] = false from by decide, Bool.or_false, ← hK]
        exact hkeyEq
      rw [hL, show (c :: kt) ++ [' ', '='] = ((c :: kt) ++ [' ']) ++ '=' :: [] from by simp,
        splitFirstEq_no_eq _ _ hkspEq]
      rw [show strip ([] : List Char) = [] from rfl, strip_key_space c kt hnsp hktr]
    · -- key non-empty, value non-empty
      rw [hK]
      have hL : strip ((c :: kt) ++ ' ' :: '=' :: ' ' :: strip v) =
          (c :: kt) ++ ' ' :: '=' :: ' ' :: strip v := by
        rw [strip, List.cons_append, trimLeft_cons_nonspace _ _ hnsp, ← List.cons_append,
          show (c :: kt) ++ ' ' :: '=' :: ' ' :: strip v =
            ((c :: kt) ++ [' ', '=', ' ']) ++ strip v from by simp,
          trimRight_append, if_neg (by rw [hvr]; exact hvne), hvr]
      have h0 : strip ((c :: kt) ++ ' ' :: '=' :: ' ' :: strip v) ≠ [] := by
        rw [hL, List.cons_append]
        exact List.cons_ne_nil _ _
      have h1 : (headIs '[' (strip ((c :: kt) ++ ' ' :: '=' :: ' ' :: strip v)) &&
          lastIs ']' (strip ((c :: kt) ++ ' ' :: '=' :: ' ' :: strip v))) = false := by
        rw [hL, show (c :: kt) ++ ' ' :: '=' :: ' ' :: strip v =
            ((c :: kt) ++ [' ', '=', ' ']) ++ strip v from by simp,
          lastIs_append ']' _ _ hvne, ← hlink ']',
          show headIs '[' (((c :: kt) ++ [' ', '=', ' ']) ++ strip v) = (c == '[') from by
            rw [List.cons_append, List.cons_append, headIs_cons],
          ← hhdrC]
        exact hhdr
      have h2 : headIs ';' (strip ((c :: kt) ++ ' ' :: '=' :: ' ' :: strip v)) = false := by
        rw [hL, List.cons_append, headIs_cons, ← hsemiC]
        exact hsemi
      have h3 : hasEq (strip ((c :: kt) ++ ' ' :: '=' :: ' ' :: strip v)) = true := by
        rw [hL, show (c :: kt) ++ ' ' :: '=' :: ' ' :: strip v =
            ((c :: kt) ++ [' ']) ++ '=' :: (' ' :: strip v) from by simp,
          hasEq_append, hasEq, show ('=' == '=') = true from by decide, Bool.true_or,
          Bool.or_true]
      rw [parse_line_entry_branch st _ h0 h1 h2 h3]
      have hkspEq : hasEq ((c :: kt) ++ [' ']) = false := by
        rw [hasEq_append, show hasEq [' '] = false from by decide, Bool.or_false, ← hK]
        exact hkeyEq
      rw [hL, show (c :: kt) ++ ' ' :: '=' :: ' ' :: strip v =
          ((c :: kt) ++ [' ']) ++ '=' :: (' ' :: strip v) from by simp,
        splitFirstEq_no_eq _ _ hkspEq]
      rw [strip_key_space c kt hnsp hktr, strip_space_value _ hvl hvr]

/- Walking the serialized lines. -/

theorem parse_lines_append (a : List (List Char)) : ∀ (b : List (List Char)) (st : ParseState),
    parse_lines st (a ++ b) = parse_lines (parse_lines st a) b := by
  induction a with
  | nil => intro b st; rfl
  | cons l a ih =>
    intro b st
    rw [List.cons_append, parse_lines, parse_lines, ih]

theorem parse_lines_comment_run : ∀ (ls : List (List Char)) (st : ParseState),
    (∀ l ∈ ls, IsCommentLine l) →
    parse_lines st ls = { st with pending := st.pending ++ ls.map strip } := by
  intro ls
  induction ls with
  | nil => intro st _; simp [parse_lines]
  | cons l ls ih =>
    intro st hall
    obtain ⟨h0, h1, h2⟩ := hall l (List.mem_cons_self l ls)
    have hstep : parse_line st l = { st with pending := st.pending ++ [strip l] } := by
      rcases h2 with h2 | h2
      · exact parse_line_comment_semi st l h0 h1 h2
      · rcases hsemi : headIs ';' (strip l) with hf | ht
        · exact parse_line_comment_prose st l h0 h1 hsemi h2
        · exact parse_line_comment_semi st l h0 h1 hsemi
    rw [parse_lines, hstep, ih _ (fun x hx => hall x (List.mem_cons_of_mem l hx))]
    simp

theorem map_strip_of_stripped : ∀ (cs : List (List Char)), (∀ c ∈ cs, strip c = c) →
    cs.map strip = cs := by
  intro cs
  induction cs with
  | nil => intro _; rfl
  | cons c cs ih =>
    intro h
    rw [List.map_cons, h c (List.mem_cons_self c cs),
      ih (fun x hx => h x (List.mem_cons_of_mem c hx))]

theorem parse_lines_serialize_entry (e : ConfigEntry) (he : WfEntry e)
    (st : ParseState) (hp : st.pending = []) :
    parse_lines st (serialize_entry e) =
      { sections := st.sections,
        current := some (match st.current with
          | some c => { header := c.header, config_entries := c.config_entries ++ [e] }
          | none => { header := [], config_entries := [e] }),
        pending := [] } := by
  obtain ⟨k0, v0, cs0⟩ := e
  obtain ⟨⟨s, hs, hhdr, hsemi, heq, hkeyE, hvalE⟩, hcom⟩ := he
  dsimp only at hkeyE hvalE hcom
  subst hkeyE
  subst hvalE
  have hcrun : ∀ l ∈ cs0, IsCommentLine l := by
    intro l hl
    obtain ⟨hc1, hc2, hc3, hc4⟩ := hcom l hl
    exact ⟨by rw [hc1]; exact hc2, by rw [hc1]; exact hc3, by rw [hc1]; exact hc4⟩
  rw [serialize_entry]
  dsimp only
  rw [parse_lines_append, parse_lines_comment_run cs0 st hcrun,
    map_strip_of_stripped cs0 (fun c0 hc0 => (hcom c0 hc0).1), hp, List.nil_append,
    parse_lines, parse_lines]
  obtain ⟨hsplit, hkeq⟩ := splitFirstEq_decomp s heq
  rw [parse_line_emitted_core s (splitFirstEq s).1 (splitFirstEq s).2 hsplit hkeq hs hhdr hsemi]

theorem parse_lines_serialize_entries : ∀ (es : List ConfigEntry), (∀ e ∈ es, WfEntry e) →
    ∀ (secs : List ConfigSection) (hdr : List Char) (es₀ : List ConfigEntry),
    parse_lines
        { sections := secs, current := some { header := hdr, config_entries := es₀ },
          pending := [] }
        ((es.map serialize_entry).flatten) =
      { sections := secs, current := some { header := hdr, config_entries := es₀ ++ es },
        pending := [] } := by
  intro es
  induction es with
  | nil => intro _ secs hdr es₀; simp [parse_lines]
  | cons e es ih =>
    intro hall secs hdr es₀
    rw [List.map_cons, List.flatten_cons, parse_lines_append,
      parse_lines_serialize_entry e (hall e (List.mem_cons_self e es)) _ rfl]
    have := ih (fun x hx => hall x (List.mem_cons_of_mem e hx)) secs hdr (es₀ ++ [e])
    simpa using this

theorem parse_line_wf_header (st : ParseState) (h : List Char) (hstr : strip h = h)
    (h1 : headIs '[' h = true) (h2 : lastIs ']' h = true) :
    parse_line st h =
      { sections := st.sections ++ (match st.current with | some c => [c] | none => []),
        current := some { header := h, config_entries := [] },
        pending := [] } := by
  have hx := parse_line_header st h (by rw [hstr]; exact h1) (by rw [hstr]; exact h2)
  rw [hstr] at hx
  exact hx

theorem parse_lines_blank_single (st : ParseState) : parse_lines st [[]] = st := by
  rw [parse_lines, parse_line_blank st [] rfl, parse_lines]

theorem parse_lines_serialize_sections : ∀ (ss : List ConfigSection),
    (∀ sec ∈ ss, WfSection sec ∧ sec.header ≠ []) →
    ∀ (secs : List ConfigSection) (c : ConfigSection),
    finish_parse (parse_lines { sections := secs, current := some c, pending := [] }
        ((ss.map serialize_section).flatten)) = secs ++ c :: ss := by
  intro ss
  induction ss with
  | nil => intro _ secs c; simp [parse_lines, finish_parse]
  | cons sec ss ih =>
    intro hall secs c
    obtain ⟨⟨hwf, hents⟩, hne⟩ := hall sec (List.mem_cons_self sec ss)
    obtain ⟨hstr, hh1, hh2⟩ := hwf hne
    rw [List.map_cons, List.flatten_cons, parse_lines_append, serialize_section,
      if_neg (by simpa using hne)]
    rw [show ([sec.header] ++ (sec.config_entries.map serialize_entry).flatten ++ [[]]) =
      sec.header :: ((sec.config_entries.map serialize_entry).flatten ++ [[]]) from by simp]
    rw [parse_lines, parse_line_wf_header _ _ hstr hh1 hh2]
    dsimp only
    rw [parse_lines_append,
      parse_lines_serialize_entries sec.config_entries hents (secs ++ [c]) (sec.header) [],
      parse_lines_blank_single, List.nil_append]
    rw [show ({ header := sec.header, config_entries := sec.config_entries } : ConfigSection) =
      sec from rfl]
    rw [ih (fun x hx => hall x (List.mem_cons_of_mem sec hx)) (secs ++ [c]) sec]
    simp

theorem parse_lines_serialize_from_none : ∀ (ss : List ConfigSection),
    (∀ sec ∈ ss, WfSection sec ∧ sec.header ≠ []) →
    finish_parse (parse_lines { sections := [], current := none, pending := [] }
        ((ss.map serialize_section).flatten)) = ss := by
  intro ss hall
  cases ss with
  | nil => rfl
  | cons sec ss =>
    obtain ⟨⟨hwf, hents⟩, hne⟩ := hall sec (List.mem_cons_self sec ss)
    obtain ⟨hstr, hh1, hh2⟩ := hwf hne
    rw [List.map_cons, List.flatten_cons, parse_lines_append, serialize_section,
      if_neg (by simpa using hne)]
    rw [show ([sec.header] ++ (sec.config_entries.map serialize_entry).flatten ++ [[]]) =
      sec.header :: ((sec.config_entries.map serialize_entry).flatten ++ [[]]) from by simp]
    rw [parse_lines, parse_line_wf_header _ _ hstr hh1 hh2]
    dsimp only
    simp only [List.nil_append]
    rw [parse_lines_append,
      parse_lines_serialize_entries sec.config_entries hents [] (sec.header) [],
      parse_lines_blank_single, List.nil_append]
    rw [show ({ header := sec.header, config_entries := sec.config_entries } : ConfigSection) =
      sec from rfl]
    rw [parse_lines_serialize_sections ss (fun x hx => hall x (List.mem_cons_of_mem sec hx))
      [] sec]
    simp

theorem reparse_serialize (l : List ConfigSection)
    (h1 : ∀ sec ∈ l, WfSection sec ∧ (sec.header = [] → sec.config_entries ≠ []))
    (h2 : ∀ sec ∈ l.tail, sec.header ≠ []) :
    parse_ue4ss_settings_file (write_ue4ss_settings_file l) = l := by
  cases l with
  | nil => rfl
  | cons hd rest =>
    rw [parse_ue4ss_settings_file, write_ue4ss_settings_file]
    by_cases hhd : hd.header = []
    · obtain ⟨⟨hwf, hents⟩, hne⟩ := h1 hd (List.mem_cons_self hd rest)
      rcases hes : hd.config_entries with _ | ⟨e₁, es⟩
      · exact absurd hes (hne hhd)
      · rw [List.map_cons, List.flatten_cons, parse_lines_append, serialize_section,
          if_pos hhd, List.nil_append, hes, List.map_cons, List.flatten_cons,
          parse_lines_append, parse_lines_append,
          parse_lines_serialize_entry e₁ (hents e₁ (by rw [hes]; exact List.mem_cons_self _ _))
            _ rfl]
        dsimp only
        rw [parse_lines_serialize_entries es
          (fun x hx => hents x (by rw [hes]; exact List.mem_cons_of_mem _ hx)) [] [] [e₁],
          parse_lines_blank_single]
        rw [show ((([e₁] ++ es) : List ConfigEntry)) = e₁ :: es from by simp]
        rw [show ({ header := [], config_entries := e₁ :: es } : ConfigSection) = hd from by
          rw [← hes, ← hhd]]
        rw [parse_lines_serialize_sections rest
          (fun x hx => ⟨(h1 x (List.mem_cons_of_mem hd hx)).1, h2 x hx⟩) [] hd]
        rw [List.nil_append]
    · rw [← write_ue4ss_settings_file, show write_ue4ss_settings_file (hd :: rest) =
        ((hd :: rest).map serialize_section).flatten from rfl]
      rw [parse_lines_serialize_from_none (hd :: rest) ?hwfall]
      case hwfall =>
        intro sec hsec
        rcases List.mem_cons.mp hsec with rfl | hsec'
        · exact ⟨(h1 sec (List.mem_cons_self sec rest)).1, hhd⟩
        · exact ⟨(h1 sec (List.mem_cons_of_mem hd hsec')).1, h2 sec hsec'⟩

theorem parse_line_inv (st : ParseState) (line : List Char) (h : StInv st) :
    StInv (parse_line st line) := by
  obtain ⟨sections, current, pending⟩ := st
  obtain ⟨hsec, htail, hcur, hnone, hpend⟩ := h
  dsimp only at hsec htail hcur hnone hpend
  by_cases hb : strip line = []
  · rw [parse_line_blank _ line hb]
    exact ⟨hsec, htail, hcur, hnone, hpend⟩
  · by_cases hh : (headIs '[' (strip line) && lastIs ']' (strip line)) = true
    · obtain ⟨hh1, hh2⟩ := Bool.and_eq_true_iff.mp hh
      rw [parse_line_header _ line hh1 hh2]
      dsimp only
      refine ⟨?_, ?_, ?_, ?_, ?_⟩
      · intro sec hsec2
        rcases List.mem_append.mp hsec2 with hx | hx
        · exact hsec sec hx
        · cases current with
          | none => exact absurd hx (List.not_mem_nil sec)
          | some c =>
            rcases List.mem_singleton.mp hx with rfl
            obtain ⟨hcw, himp⟩ := hcur sec rfl
            exact ⟨hcw, fun hz => (himp hz).2⟩
      · intro sec hsec2
        cases current with
        | none =>
          rw [List.append_nil] at hsec2
          exact htail sec hsec2
        | some c =>
          cases sections with
          | nil => simp at hsec2
          | cons s0 srest =>
            rw [List.cons_append, List.tail_cons] at hsec2
            rcases List.mem_append.mp hsec2 with hx | hx
            · exact htail sec hx
            · rcases List.mem_singleton.mp hx with rfl
              intro hz
              obtain ⟨_, himp⟩ := hcur sec rfl
              exact List.noConfusion (himp hz).1
      · intro c2 hc2
        rw [Option.some.injEq] at hc2
        subst hc2
        refine ⟨⟨fun _ => ⟨strip_idem line, hh1, hh2⟩, fun e he => absurd he (List.not_mem_nil e)⟩,
          fun hz => ?_⟩
        exfalso
        dsimp only at hz
        rw [hz] at hh1
        exact Bool.noConfusion hh1
      · intro hx
        exact Option.noConfusion hx
      · intro p hp
        exact absurd hp (List.not_mem_nil p)
    · by_cases hsm : headIs ';' (strip line) = true
      · rw [parse_line_comment_semi _ line hb (Bool.eq_false_iff.mpr hh) hsm]
        dsimp only
        refine ⟨hsec, htail, hcur, hnone, ?_⟩
        intro p hp
        rcases List.mem_append.mp hp with hx | hx
        · exact hpend p hx
        · rcases List.mem_singleton.mp hx with rfl
          exact ⟨strip_idem line, hb, Bool.eq_false_iff.mpr hh, Or.inl hsm⟩
      · by_cases heq : hasEq (strip line) = true
        · rw [parse_line_entry_branch _ line hb (Bool.eq_false_iff.mpr hh)
            (Bool.eq_false_iff.mpr hsm) heq]
          dsimp only
          have hwfe : WfEntry (ConfigEntry.mk (strip (splitFirstEq (strip line)).1)
              (strip (splitFirstEq (strip line)).2) pending) := by
            refine ⟨⟨strip line, strip_idem line, Bool.eq_false_iff.mpr hh,
              Bool.eq_false_iff.mpr hsm, heq, rfl, rfl⟩, ?_⟩
            intro c0 hc0
            exact hpend c0 hc0
          cases current with
          | none =>
            refine ⟨hsec, htail, ?_, ?_, ?_⟩
            · intro c2 hc2
              rw [Option.some.injEq] at hc2
              subst hc2
              refine ⟨⟨fun hz => absurd rfl hz, ?_⟩, fun _ => ⟨hnone rfl, by simp⟩⟩
              intro e he
              rcases List.mem_singleton.mp he with rfl
              exact hwfe
            · intro hx
              exact Option.noConfusion hx
            · intro p hp
              exact absurd hp (List.not_mem_nil p)
          | some c =>
            refine ⟨hsec, htail, ?_, ?_, ?_⟩
            · intro c2 hc2
              rw [Option.some.injEq] at hc2
              subst hc2
              obtain ⟨⟨hcw1, hcw2⟩, himp⟩ := hcur c rfl
              refine ⟨⟨hcw1, ?_⟩, fun hz => ⟨(himp hz).1, by simp⟩⟩
              intro e he
              rcases List.mem_append.mp he with hx | hx
              · exact hcw2 e hx
              · rcases List.mem_singleton.mp hx with rfl
                exact hwfe
            · intro hx
              exact Option.noConfusion hx
            · intro p hp
              exact absurd hp (List.not_mem_nil p)
        · rw [parse_line_comment_prose _ line hb (Bool.eq_false_iff.mpr hh)
            (Bool.eq_false_iff.mpr hsm) (Bool.eq_false_iff.mpr heq)]
          dsimp only
          refine ⟨hsec, htail, hcur, hnone, ?_⟩
          intro p hp
          rcases List.mem_append.mp hp with hx | hx
          · exact hpend p hx
          · rcases List.mem_singleton.mp hx with rfl
            exact ⟨strip_idem line, hb, Bool.eq_false_iff.mpr hh,
              Or.inr (Bool.eq_false_iff.mpr heq)⟩

theorem parse_lines_inv : ∀ (lines : List (List Char)) (st : ParseState), StInv st →
    StInv (parse_lines st lines) := by
  intro lines
  induction lines with
  | nil => intro st h; exact h
  | cons l lines ih =>
    intro st h
    rw [parse_lines]
    exact ih _ (parse_line_inv st l h)

theorem finish_parse_wf (st : ParseState) (h : StInv st) :
    (∀ sec ∈ finish_parse st, WfSection sec ∧ (sec.header = [] → sec.config_entries ≠ [])) ∧
    (∀ sec ∈ (finish_parse st).tail, sec.header ≠ []) := by
  obtain ⟨sections, current, pending⟩ := st
  obtain ⟨hsec, htail, hcur, hnone, hpend⟩ := h
  dsimp only at hsec htail hcur hnone hpend
  rw [finish_parse]
  dsimp only
  cases current with
  | none =>
    rw [hnone rfl]
    constructor
    · intro sec hsec2
      simp at hsec2
    · intro sec hsec2
      simp at hsec2
  | some c =>
    constructor
    · intro sec hsec2
      rcases List.mem_append.mp hsec2 with hx | hx
      · exact hsec sec hx
      · rcases List.mem_singleton.mp hx with rfl
        obtain ⟨hcw, himp⟩ := hcur sec rfl
        exact ⟨hcw, fun hz => (himp hz).2⟩
    · intro sec hsec2
      cases sections with
      | nil => simp at hsec2
      | cons s0 srest =>
        rw [List.cons_append, List.tail_cons] at hsec2
        rcases List.mem_append.mp hsec2 with hx | hx
        · exact htail sec hx
        · rcases List.mem_singleton.mp hx with rfl
          intro hz
          obtain ⟨_, himp⟩ := hcur sec rfl
          exact List.noConfusion (himp hz).1

/-- Claim C3: round-trip of the config parser/writer: re-parsing the
serialization of a parse result reproduces that parse result structurally,
for every input line sequence (in particular for every text in the canonical
emitted shape). -/
theorem c3_parse_serialize_roundtrip (lines : List (List Char)) :
    parse_ue4ss_settings_file (write_ue4ss_settings_file (parse_ue4ss_settings_file lines)) =
      parse_ue4ss_settings_file lines := by
  have hinv : StInv (parse_lines { sections := [], current := none, pending := [] } lines) := by
    apply parse_lines_inv
    refine ⟨?_, ?_, ?_, ?_, ?_⟩
    · intro sec hx
      exact absurd hx (List.not_mem_nil sec)
    · intro sec hx
      exact absurd hx (List.not_mem_nil sec)
    · intro c hc
      exact Option.noConfusion hc
    · intro _
      rfl
    · intro p hp
      exact absurd hp (List.not_mem_nil p)
  obtain ⟨h1, h2⟩ := finish_parse_wf _ hinv
  exact reparse_serialize (parse_ue4ss_settings_file lines) h1 h2

/-- Claim C9: for every line whose trimmed form is non-blank, is not a
section header, does not start with a semicolon and contains an equals sign,
the parser splits at the first equals sign, creates an entry with both
halves trimmed, attaches and clears the pending comments, and opens an
implicit empty-header section first if none is open. -/
theorem c9_entry_line (st : ParseState) (line : List Char) (h1 : strip line ≠ [])
    (h2 : (headIs '[' (strip line) && lastIs ']' (strip line)) = false)
    (h3 : headIs ';' (strip line) = false) (h4 : hasEq (strip line) = true) :
    ∃ a b, strip line = a ++ '=' :: b ∧ hasEq a = false ∧
      parse_line st line =
        { sections := st.sections,
          current := some (match st.current with
            | some c =>
              { header := c.header,
                config_entries := c.config_entries ++
                  [{ key := strip a, value := strip b, comments := st.pending }] }
            | none =>
              { header := [],
                config_entries := [{ key := strip a, value := strip b,
                                     comments := st.pending }] }),
          pending := [] } :=
  ⟨(splitFirstEq (strip line)).1, (splitFirstEq (strip line)).2,
    (splitFirstEq_decomp _ h4).1, (splitFirstEq_decomp _ h4).2,
    parse_line_entry_branch st line h1 h2 h3 h4⟩

/-- Witness for C9 on the line "k = v=w" with no section open. -/
theorem c9_witness :
    ∃ a b, strip ("k = v=w".data) = a ++ '=' :: b ∧ hasEq a = false ∧
      parse_line { sections := [], current := none, pending := [] } ("k = v=w".data) =
        { sections := [],
          current := some
            { header := [],
              config_entries := [{ key := strip a, value := strip b, comments := [] }] },
          pending := [] } :=
  c9_entry_line { sections := [], current := none, pending := [] } ("k = v=w".data)
    (by decide) (by decide) (by decide) (by decide)

/-- Claim C10: trailing comment lines (semicolon comments or stray non-blank
prose) not followed by a key-value line are dropped: appending them to any
input leaves the parse result unchanged. -/
theorem c10_trailing_comments_dropped (lines trailing : List (List Char))
    (h : ∀ l ∈ trailing, IsCommentLine l) :
    parse_ue4ss_settings_file (lines ++ trailing) = parse_ue4ss_settings_file lines := by
  rw [parse_ue4ss_settings_file, parse_lines_append, parse_lines_comment_run trailing _ h,
    parse_ue4ss_settings_file]
  rfl

/-- Witness for C10: an orphan comment after a section and an entry. -/
theorem c10_witness :
    parse_ue4ss_settings_file ["[A]".data, "k=v".data, "; orphan".data] =
      parse_ue4ss_settings_file ["[A]".data, "k=v".data] :=
  c10_trailing_comments_dropped ["[A]".data, "k=v".data] ["; orphan".data] (by decide)
